import Mathlib

/-!
Verification of the transcript-reconstruction and link-normalization pipeline
of `src/main.py` (WhatsApp conversation → Spotify playlist).

The program's text is embedded shallowly over `List Char`:

* `pySplit sep s` models Python's `s.split(sep)` for a non-empty separator
  (leftmost, non-overlapping occurrences; the separator is removed).
* `format_messages` models the record-reassembly `while` loop
  (`main.py` lines 90-107); `none` models the uncaught `IndexError` raised
  when the loop merges past the end of the list.
* `tokenizeRecord` / `convert_to_dataframe` model the per-record field split
  (`main.py` lines 129-148); `none` models the uncaught `IndexError` on
  `s1[1]` / `s2[1]`.
* `urlToUri` / `convert_url_to_uri` model `main.py` lines 258-283.
* `convert_albums_to_tracks` models `main.py` lines 220-255, with the
  external catalog injected as a function from the album's id (last `:`
  segment) to the list of member track ids.
* `obtain_new_tracks`, `add_items_to_playlist`, `submittedAdds` model
  the synchronization logic of `create_playlist` (`main.py` lines 286-501);
  Python's `list(set(a) - set(b))` is modeled as `(a.filter (· ∉ b)).dedup`,
  which has the same membership and no-duplicate properties (the iteration
  order of a Python set is unspecified and no claim depends on it).

Loop-shaped functions carry an explicit fuel argument so that they are
structurally recursive and evaluate inside the kernel; in each case the fuel
is chosen from the input's length and provably never runs out on the
arguments the program uses (fuel-irrelevance lemmas below).
-/

/-- One step list of parts of Python's `s.split(sep)`, driven by `fuel`.
`fuel = 0` is never reached when `s.length < fuel` (see `pySplitF_fuel_irrel`). -/
def pySplitF (sep : List Char) : Nat → List Char → List (List Char)
  | 0, s => [s]
  | _ + 1, [] => [[]]
  | fuel + 1, c :: rest =>
    if sep.isPrefixOf (c :: rest) && !sep.isEmpty then
      [] :: pySplitF sep fuel (rest.drop (sep.length - 1))
    else
      match pySplitF sep fuel rest with
      | [] => [[c]]
      | p :: ps => (c :: p) :: ps

/-- Python's `s.split(sep)` for non-empty `sep`: the list of parts between
leftmost non-overlapping occurrences of `sep`, separators removed. -/
def pySplit (sep s : List Char) : List (List Char) :=
  pySplitF sep (s.length + 1) s

/-- `sep` occurs in `s` at position `p`. -/
def matchesAt (sep s : List Char) (p : Nat) : Bool :=
  sep.isPrefixOf (s.drop p)

/-- `sep` occurs in `s` at no position other than `k` (its occurrence at `k`,
when there is one, is the only one). -/
def onlyOccAt (sep s : List Char) (k : Nat) : Bool :=
  (List.range (s.length + 1)).all (fun p => !(matchesAt sep s p) || (p == k))

/-- `text[i+1].split(',')[0]` of `main.py` line 97: the candidate date token
of a fragment, its prefix before the first comma. -/
def next_date_element (s : List Char) : List Char :=
  (pySplit [','] s).headD []

/-- The date-boundary test of `main.py` line 99: the prefix before the first
comma has length at most 8 and contains exactly two slash characters. -/
def isDateBoundary (s : List Char) : Bool :=
  decide ((next_date_element s).length ≤ 8 ∧ (next_date_element s).count '/' = 2)

/-- The reassembly `while` loop of `format_messages` (`main.py` lines 94-106),
one fragment of progress per unit of fuel. At the cursor the loop looks at
the *next* fragment `y`: if `y` passes the date test the current fragment is
complete and the cursor advances; otherwise the two fragments are merged.
When a merge leaves the cursor at the last element, the next iteration's
`text[i+1]` raises an uncaught `IndexError`, modeled as `none`. The fuel
never runs out when `l.length ≤ fuel + 1` (each call shortens the list). -/
def formatLoop : Nat → List (List Char) → Option (List (List Char))
  | _, [] => some []
  | _, [x] => some [x]
  | 0, _ :: _ :: _ => none
  | fuel + 1, x :: y :: rest =>
    if isDateBoundary y then
      (formatLoop fuel (y :: rest)).map (fun l => x :: l)
    else
      match rest with
      | [] => none
      | _ :: _ => formatLoop fuel ((x ++ y) :: rest)

/-- `format_messages` of `main.py` lines 77-107; `none` models the uncaught
`IndexError` raised when no remaining fragment ever passes the date test. -/
def format_messages (text : List (List Char)) : Option (List (List Char)) :=
  formatLoop text.length text

/-- The separators `', '`, `' - '`, `': '` of `main.py` lines 131-137. -/
def sepDate : List Char := [',', ' ']

def sepTime : List Char := [' ', '-', ' ']

def sepSender : List Char := [':', ' ']

/-- One `s.split(sep)` step followed by the `if len > 2: join` merge of
`main.py` lines 131-135; `none` models the `IndexError` on `s[1]` when the
separator is absent. The tail parts are joined *without* the separator,
exactly as `''.join(s1[1:])` does. -/
def splitStep (sep r : List Char) : Option (List Char × List Char) :=
  match pySplit sep r with
  | x :: y :: rest => some (x, (y :: rest).flatten)
  | _ => none

/-- The sender/message split of `main.py` lines 137-142: a missing `': '`
yields an empty sender and the whole remainder as message. -/
def senderSplit (r : List Char) : List Char × List Char :=
  match pySplit sepSender r with
  | [x] => ([], x)
  | x :: y :: rest => (x, (y :: rest).flatten)
  | [] => ([], [])

/-- The per-record tokenization of `convert_to_dataframe`
(`main.py` lines 129-148): date, time, sender, message. -/
def tokenizeRecord (r : List Char) :
    Option (List Char × List Char × List Char × List Char) :=
  match splitStep sepDate r with
  | none => none
  | some (d, rest1) =>
    match splitStep sepTime rest1 with
    | none => none
    | some (t, rest2) => some (d, t, (senderSplit rest2).1, (senderSplit rest2).2)

/-- Sequential per-element processing where any raised exception (a `none`)
aborts the whole run, as an uncaught Python exception does. -/
def mapOpt {α β : Type} (f : α → Option β) : List α → Option (List β)
  | [] => some []
  | x :: xs =>
    match f x, mapOpt f xs with
    | some y, some ys => some (y :: ys)
    | _, _ => none

/-- The whole-conversation loop of `convert_to_dataframe`
(`main.py` lines 129-148): one bad record aborts the run. -/
def convert_to_dataframe (text : List (List Char)) :
    Option (List (List Char × List Char × List Char × List Char)) :=
  mapOpt tokenizeRecord text

/-- Reassembling `date + ", " + time + " - " + sender + ": " + body` from a
tokenized record. -/
def reconstruct (m : List Char × List Char × List Char × List Char) : List Char :=
  m.1 ++ sepDate ++ m.2.1 ++ sepTime ++ m.2.2.1 ++ sepSender ++ m.2.2.2

/-- A well-formed record, assembled from its four fields. -/
def recordOf (d t s b : List Char) : List Char :=
  d ++ sepDate ++ t ++ sepTime ++ s ++ sepSender ++ b

/-- The fixed host part stripped by `convert_url_to_uri` (`main.py` line 274). -/
def hostStr : List Char := "https://open.spotify.com/".toList

/-- One iteration of the loop of `convert_url_to_uri` (`main.py` lines 273-278):
`url.split(host)[1]`, then `split('/')` using parts `[0]` and `[1]`, then the
part of `[1]` before the first `'?'`. `none` models the uncaught `IndexError`
when the host does not occur in the link or no `'/'` follows it. -/
def urlToUri (url : List Char) : Option (List Char) :=
  match pySplit hostStr url with
  | _ :: s1 :: _ =>
    match pySplit ['/'] s1 with
    | s20 :: s21 :: _ =>
      some ("spotify:".toList ++ s20 ++ [':'] ++ (pySplit ['?'] s21).headD [])
    | _ => none
  | _ => none

/-- Substring test, Python's `needle in hay`. -/
def containsSub (needle hay : List Char) : Bool :=
  (List.range (hay.length + 1)).any (fun p => needle.isPrefixOf (hay.drop p))

def trackLit : List Char := "track".toList

def albumLit : List Char := "album".toList

/-- `'spotify:track:'`, the stem of every URI synthesized for an album member
(`main.py` line 249). -/
def trackUriStem : List Char := "spotify:track:".toList

/-- `album_uri.split(":")[-1]` of `main.py` line 240. -/
def lastSeg (uri : List Char) : List Char :=
  (pySplit [':'] uri).getLastD []

/-- `convert_albums_to_tracks` (`main.py` lines 220-255). The external
catalog is injected as a function from an album's id to the ordered ids of
its member tracks. URIs containing `'track'` are kept; for each URI
containing `'album'`, one `'spotify:track:' + id` entry is appended per
member returned by the catalog. -/
def convert_albums_to_tracks (catalog : List Char → List (List Char))
    (uri_list : List (List Char)) : List (List Char) :=
  (uri_list.filter (fun x => containsSub trackLit x)) ++
    ((uri_list.filter (fun x => containsSub albumLit x)).map
      (fun a => (catalog (lastSeg a)).map (fun m => trackUriStem ++ m))).flatten

/-- `convert_url_to_uri` (`main.py` lines 258-283): the per-link loop, then
the configuration-dependent album expansion. An exception in the loop aborts
the batch before any expansion. -/
def convert_url_to_uri (albums : Bool) (catalog : List Char → List (List Char))
    (url_list : List (List Char)) : Option (List (List Char)) :=
  (mapOpt urlToUri url_list).map
    (fun uris => if albums then convert_albums_to_tracks catalog uris else uris)

/-- `obtain_new_tracks` (`main.py` lines 353-366): Python's
`list(set(tracks) - set(already_added_tracks))`, modeled as a filtered
deduplication — same membership, no duplicates; a Python set's iteration
order is unspecified and nothing below depends on the order. -/
def obtain_new_tracks (tracks already_added_tracks : List (List Char)) : List (List Char) :=
  (tracks.filter (fun t => decide (t ∉ already_added_tracks))).dedup

/-- The paging `while` loop of `add_items_to_playlist` (`main.py` lines
460-463): submit `tracks[counter*100:(counter+1)*100]` while
`counter*100 <= len(tracks)`. Fuel bounds the iteration count and never runs
out for the fuel chosen in `add_items_to_playlist` (see `batchLoop_nil` and
the lemmas below). -/
def batchLoop {α : Type} (tracks : List α) : Nat → Nat → List (List α)
  | _, 0 => []
  | counter, fuel + 1 =>
    if counter * 100 ≤ tracks.length then
      ((tracks.drop (counter * 100)).take 100) :: batchLoop tracks (counter + 1) fuel
    else []

/-- `add_items_to_playlist` (`main.py` lines 421-465), returning the list of
submitted batches in submission order. -/
def add_items_to_playlist {α : Type} (tracks : List α) : List (List α) :=
  if tracks.length ≤ 100 then [tracks] else batchLoop tracks 0 (tracks.length + 1)

/-- The two branches of `create_playlist` (`main.py` lines 468-501), returning
the batches submitted for addition in one run. `some current` is the Exists
state (the playlist was found, holding `current`); `none` is the NotExists
state (the playlist is created and the incoming `tracks` list is submitted
as is). In the Exists state an empty difference makes no append call. -/
def submittedAdds (tracks : List (List Char)) (existing : Option (List (List Char))) :
    List (List (List Char)) :=
  match existing with
  | some current =>
    let toAdd := obtain_new_tracks tracks current
    if toAdd.isEmpty then [] else add_items_to_playlist toAdd
  | none => add_items_to_playlist tracks

/-- The list whose duplicate submission refutes the NotExists half of C6. -/
def dupTrack : List Char := "spotify:track:aaa".toList

/-- A first fragment that is not date-led. -/
def fragGarbage : List Char := "garbage".toList

/-- A date-led second fragment. -/
def fragDated : List Char := "1/2/20, x".toList

/-- A record with neither a `', '` nor a `' - '` separator. -/
def recNoSep : List Char := "no separators here".toList

/-- A fully well-formed record. -/
def recGood : List Char := "1/2/20, 10:00 - A: hi".toList

/-- A record with a date separator but no `' - '` separator. -/
def recNoDash : List Char := "onlydate, rest without dash".toList

/-- A link without the expected host. -/
def linkBad : List Char := "notaspotifylink".toList

/-- A well-formed track link with a query string. -/
def linkGood : List Char := "https://open.spotify.com/track/abc123?si=q".toList

/-- A link with the host but no `'/'` after it. -/
def linkNoSlash : List Char := "https://open.spotify.com/trackonly".toList

/-- A catalog fake returning no members; the album branch is off anyway. -/
def emptyCatalog : List Char → List (List Char) := fun _ => []

/-- An album URI whose id contains the substring `'track'`. -/
def albumWithTrackSub : List Char := "spotify:album:xtrackx".toList

/-- A catalog fake with one member per container. -/
def oneTrackCatalog : List Char → List (List Char) := fun _ => ["t1".toList]

/-- A catalog fake with two members per container. -/
def twoTrackCatalog : List Char → List (List Char) :=
  fun _ => ["m1".toList, "m2".toList]

/-- A mixed track/album URI list with disjoint kind substrings. -/
def mixedUris : List (List Char) :=
  ["spotify:track:t0".toList, "spotify:album:a0".toList]

theorem pySplitF_fuel_irrel (sep : List Char) :
    ∀ f₁ f₂ s, s.length < f₁ → s.length < f₂ → pySplitF sep f₁ s = pySplitF sep f₂ s := by
  intro f₁
  induction f₁ with
  | zero => intro f₂ s h₁ _; exact absurd h₁ (Nat.not_lt_zero _)
  | succ f ih =>
    intro f₂ s h₁ h₂
    cases f₂ with
    | zero => exact absurd h₂ (Nat.not_lt_zero _)
    | succ f' =>
      cases s with
      | nil => rfl
      | cons c rest =>
        simp only [pySplitF]
        by_cases hg : (sep.isPrefixOf (c :: rest) && !sep.isEmpty) = true
        · rw [if_pos hg, if_pos hg]
          have hlen : (rest.drop (sep.length - 1)).length < f := by
            have := List.length_drop (sep.length - 1) rest
            simp only [List.length_cons] at h₁
            omega
          have hlen' : (rest.drop (sep.length - 1)).length < f' := by
            have := List.length_drop (sep.length - 1) rest
            simp only [List.length_cons] at h₂
            omega
          rw [ih f' _ hlen hlen']
        · rw [if_neg hg, if_neg hg]
          have hlen : rest.length < f := by
            simp only [List.length_cons] at h₁; omega
          have hlen' : rest.length < f' := by
            simp only [List.length_cons] at h₂; omega
          rw [ih f' rest hlen hlen']

theorem pySplit_nil (sep : List Char) : pySplit sep [] = [[]] := rfl

/-- Characteristic equation of `pySplit` when `sep` matches at the front. -/
theorem pySplit_pos (sep : List Char) (c : Char) (rest : List Char)
    (h : sep.isPrefixOf (c :: rest) = true) (hne : sep.isEmpty = false) :
    pySplit sep (c :: rest) = [] :: pySplit sep (rest.drop (sep.length - 1)) := by
  show pySplitF sep ((c :: rest).length + 1) (c :: rest) = _
  simp only [List.length_cons, pySplitF, h, hne, Bool.not_false, Bool.and_true, if_pos]
  congr 1
  apply pySplitF_fuel_irrel
  · have := List.length_drop (sep.length - 1) rest
    omega
  · omega

/-- Characteristic equation of `pySplit` when `sep` does not match at the front. -/
theorem pySplit_neg (sep : List Char) (c : Char) (rest : List Char)
    (h : (sep.isPrefixOf (c :: rest) && !sep.isEmpty) = false) :
    pySplit sep (c :: rest) =
      match pySplit sep rest with
      | [] => [[c]]
      | p :: ps => (c :: p) :: ps := by
  show pySplitF sep ((c :: rest).length + 1) (c :: rest) = _
  simp only [List.length_cons, pySplitF, h, Bool.false_eq_true, if_neg, if_false]
  rfl

theorem pySplit_ne_nil (sep s : List Char) : pySplit sep s ≠ [] := by
  show pySplitF sep (s.length + 1) s ≠ []
  cases s with
  | nil => simp [pySplitF]
  | cons c rest =>
    simp only [pySplitF]
    by_cases hg : (sep.isPrefixOf (c :: rest) && !sep.isEmpty) = true
    · rw [if_pos hg]; simp
    · rw [if_neg hg]
      rcases h' : pySplitF sep (rest.length + 1) rest with _ | ⟨p, ps⟩ <;> simp [h']

/-- `sep` is a prefix of `sep ++ t` (Bool form used by `pySplit`). -/
theorem isPrefixOf_append_self : ∀ (l t : List Char), l.isPrefixOf (l ++ t) = true := by
  intro l
  induction l with
  | nil => intro t; simp [List.isPrefixOf]
  | cons c cs ih => intro t; simp [List.isPrefixOf, ih]

theorem drop_app_add : ∀ (a rest : List Char) (q : Nat), (a ++ rest).drop (a.length + q) = rest.drop q := by
  intro a
  induction a with
  | nil => intro rest q; simp
  | cons x a' ih =>
    intro rest q
    have : (x :: a').length + q = (a'.length + q) + 1 := by simp [List.length_cons]; omega
    rw [this]
    simpa using ih rest q

theorem drop_len_app (a rest : List Char) : (a ++ rest).drop a.length = rest := by
  have := drop_app_add a rest 0
  simpa using this

theorem onlyOccAt_spec (sep s : List Char) (k : Nat) (hne : sep ≠ [])
    (h : onlyOccAt sep s k = true) : ∀ p, matchesAt sep s p = true → p = k := by
  intro p hp
  by_cases hle : p ≤ s.length
  · have hmem : p ∈ List.range (s.length + 1) := List.mem_range.mpr (by omega)
    have := List.all_eq_true.mp h p hmem
    rw [hp] at this
    simpa using this
  · exfalso
    have hdrop : s.drop p = [] := List.drop_eq_nil_of_le (by omega)
    rw [matchesAt, hdrop] at hp
    cases sep with
    | nil => exact hne rfl
    | cons c cs => simp [List.isPrefixOf] at hp

theorem matchesAt_shift (sep a rest : List Char) (q : Nat) :
    matchesAt sep (a ++ rest) (a.length + q) = matchesAt sep rest q := by
  unfold matchesAt
  rw [drop_app_add]

/-- If `sep` does not occur before position `a.length`, `pySplit` keeps `a`
as the first part and continues after the separator. -/
theorem pySplit_append_sep (sep : List Char) (hne : sep ≠ []) :
    ∀ (a rest : List Char),
      (∀ p, p < a.length → sep.isPrefixOf ((a ++ sep ++ rest).drop p) = false) →
      pySplit sep (a ++ sep ++ rest) = a :: pySplit sep rest := by
  intro a
  induction a with
  | nil =>
    intro rest _
    cases sep with
    | nil => exact absurd rfl hne
    | cons s0 s' =>
      show pySplit (s0 :: s') (s0 :: (s' ++ rest)) = _
      rw [pySplit_pos (s0 :: s') s0 (s' ++ rest) (by simpa using isPrefixOf_append_self (s0 :: s') rest) rfl]
      congr 1
      have : (s0 :: s').length - 1 = s'.length := by simp
      rw [this, drop_len_app]
  | cons x a' ih =>
    intro rest h
    have h0 : sep.isPrefixOf (x :: (a' ++ sep ++ rest)) = false := by
      have := h 0 (by simp)
      simpa using this
    rw [show (x :: a') ++ sep ++ rest = x :: (a' ++ sep ++ rest) from rfl]
    rw [pySplit_neg sep x (a' ++ sep ++ rest) (by rw [h0]; rfl)]
    have hrec : pySplit sep (a' ++ sep ++ rest) = a' :: pySplit sep rest := by
      apply ih
      intro p hp
      have := h (p + 1) (by simp [List.length_cons]; omega)
      simpa using this
    rw [hrec]

/-- If `sep` occurs nowhere in `s`, `pySplit` returns the single part `s`. -/
theorem pySplit_no_occ (sep : List Char) (hne : sep ≠ []) :
    ∀ (s : List Char), (∀ p, sep.isPrefixOf (s.drop p) = false) → pySplit sep s = [s] := by
  intro s
  induction s with
  | nil => intro _; exact pySplit_nil sep
  | cons c t ih =>
    intro h
    have h0 : sep.isPrefixOf (c :: t) = false := by simpa using h 0
    rw [pySplit_neg sep c t (by rw [h0]; rfl)]
    have : pySplit sep t = [t] := ih (fun p => by simpa using h (p + 1))
    rw [this]

/-- If the only occurrence of `sep` in `a ++ sep ++ rest` is the one at
position `a.length`, Python's split yields exactly the two parts. -/
theorem pySplit_of_onlyOcc (sep : List Char) (hne : sep ≠ []) (a rest : List Char)
    (huniq : ∀ p, matchesAt sep (a ++ sep ++ rest) p = true → p = a.length) :
    pySplit sep (a ++ sep ++ rest) = [a, rest] := by
  have h1 : pySplit sep (a ++ sep ++ rest) = a :: pySplit sep rest := by
    apply pySplit_append_sep sep hne
    intro p hp
    by_contra hb
    have : p = a.length := huniq p (by simpa [matchesAt] using hb)
    omega
  have h2 : pySplit sep rest = [rest] := by
    apply pySplit_no_occ sep hne
    intro q
    by_contra hb
    have hm : matchesAt sep rest q = true := by simpa [matchesAt] using hb
    have hm3 : matchesAt sep ((a ++ sep) ++ rest) ((a ++ sep).length + q) = true := by
      rw [matchesAt_shift]; exact hm
    have := huniq _ hm3
    have hlen : (a ++ sep).length = a.length + sep.length := List.length_append a sep
    have hsl : 0 < sep.length := by
      cases sep with
      | nil => exact absurd rfl hne
      | cons c cs => simp
    omega
  rw [h1, h2]

/-- The first part of `s.split(sep)` for a one-character separator is the
prefix of `s` before the first occurrence of that character. -/
theorem pySplit_head_takeWhile (c : Char) :
    ∀ s : List Char, (pySplit [c] s).headD [] = s.takeWhile (fun x => !(x == c)) := by
  intro s
  induction s with
  | nil => rfl
  | cons x t ih =>
    by_cases hx : x = c
    · subst hx
      rw [pySplit_pos [x] x t (by simp [List.isPrefixOf]) rfl]
      simp [List.takeWhile_cons]
    · have hxc : (c == x) = false := beq_eq_false_iff_ne.mpr (Ne.symm hx)
      have hpre : ([c].isPrefixOf (x :: t)) = false := by
        simp [List.isPrefixOf, hxc]
      rw [pySplit_neg [c] x t (by rw [hpre]; rfl)]
      obtain ⟨p, ps, hp⟩ : ∃ p ps, pySplit [c] t = p :: ps := by
        rcases h' : pySplit [c] t with _ | ⟨p, ps⟩
        · exact absurd h' (pySplit_ne_nil [c] t)
        · exact ⟨p, ps, rfl⟩
      rw [hp]
      rw [hp] at ih
      simp only [List.headD_cons] at ih ⊢
      rw [List.takeWhile_cons]
      have hxc' : (x == c) = false := beq_eq_false_iff_ne.mpr hx
      simp [hxc', ih]

theorem takeWhile_stop_append (p : Char → Bool) :
    ∀ (y w : List Char), (∃ c ∈ y, p c = false) → (y ++ w).takeWhile p = y.takeWhile p := by
  intro y
  induction y with
  | nil => intro w h; simp at h
  | cons a y' ih =>
    intro w h
    by_cases ha : p a = true
    · obtain ⟨c, hc, hpc⟩ := h
      have hcy : c ∈ y' := by
        rcases List.mem_cons.mp hc with h1 | h1
        · subst h1; rw [ha] at hpc; cases hpc
        · exact h1
      rw [List.cons_append, List.takeWhile_cons, List.takeWhile_cons, ha]
      simp only [if_true]
      rw [ih w ⟨c, hcy, hpc⟩]
    · have ha' : p a = false := by
        cases hpa : p a
        · rfl
        · exact absurd hpa ha
      rw [List.cons_append, List.takeWhile_cons, List.takeWhile_cons, ha']
      simp

/-- Appending text to a fragment whose date token already contains a comma
does not change the date token, hence not the boundary test. -/
theorem isDateBoundary_append (y w : List Char) (h : ',' ∈ y) :
    isDateBoundary (y ++ w) = isDateBoundary y := by
  have h1 : next_date_element (y ++ w) = next_date_element y := by
    unfold next_date_element
    rw [pySplit_head_takeWhile, pySplit_head_takeWhile]
    exact takeWhile_stop_append _ y w ⟨',', h, by simp⟩
  unfold isDateBoundary
  rw [h1]

theorem mapOpt_eq_none {α β : Type} (f : α → Option β) :
    ∀ (l : List α) (x : α), x ∈ l → f x = none → mapOpt f l = none := by
  intro l
  induction l with
  | nil => intro x hx _; simp at hx
  | cons y l' ih =>
    intro x hx hfx
    rcases List.mem_cons.mp hx with h1 | h1
    · subst h1
      simp [mapOpt, hfx]
    · show (match f y, mapOpt f l' with
        | some z, some zs => some (z :: zs)
        | _, _ => none) = none
      rw [ih x h1 hfx]
      cases f y <;> rfl

theorem batchLoop_nil {α : Type} (tracks : List α) :
    ∀ fuel counter, tracks.length < counter * 100 → batchLoop tracks counter fuel = [] := by
  intro fuel counter h
  cases fuel with
  | zero => rfl
  | succ f => simp only [batchLoop]; rw [if_neg (by omega)]

theorem batchLoop_flatten {α : Type} (tracks : List α) :
    ∀ fuel counter, tracks.length < counter * 100 + fuel * 100 →
      (batchLoop tracks counter fuel).flatten = tracks.drop (counter * 100) := by
  intro fuel
  induction fuel with
  | zero =>
    intro counter h
    simp only [batchLoop, List.flatten_nil]
    rw [List.drop_eq_nil_of_le (by omega)]
  | succ f ih =>
    intro counter h
    by_cases hc : counter * 100 ≤ tracks.length
    · simp only [batchLoop]
      rw [if_pos hc]
      rw [List.flatten_cons]
      rw [ih (counter + 1) (by omega)]
      have h1 : (counter + 1) * 100 = counter * 100 + 100 := by omega
      rw [h1, ← List.drop_drop, List.take_append_drop]
    · simp only [batchLoop]
      rw [if_neg hc, List.flatten_nil]
      rw [List.drop_eq_nil_of_le (by omega)]

theorem add_items_flatten {α : Type} (tracks : List α) :
    (add_items_to_playlist tracks).flatten = tracks := by
  unfold add_items_to_playlist
  by_cases h : tracks.length ≤ 100
  · rw [if_pos h]; simp
  · rw [if_neg h]
    have := batchLoop_flatten tracks (tracks.length + 1) 0 (by omega)
    simpa using this

theorem batchLoop_mem_size {α : Type} (tracks : List α) :
    ∀ fuel counter b, b ∈ batchLoop tracks counter fuel → b.length ≤ 100 := by
  intro fuel
  induction fuel with
  | zero => intro counter b hb; simp [batchLoop] at hb
  | succ f ih =>
    intro counter b hb
    by_cases hc : counter * 100 ≤ tracks.length
    · simp only [batchLoop] at hb
      rw [if_pos hc] at hb
      rcases List.mem_cons.mp hb with h1 | h1
      · subst h1; exact List.length_take_le 100 _
      · exact ih (counter + 1) b h1
    · simp only [batchLoop] at hb
      rw [if_neg hc] at hb
      simp at hb

theorem add_items_mem_size {α : Type} (tracks : List α) :
    ∀ b ∈ add_items_to_playlist tracks, b.length ≤ 100 := by
  intro b hb
  unfold add_items_to_playlist at hb
  by_cases hl : tracks.length ≤ 100
  · rw [if_pos hl] at hb
    simp at hb
    subst hb; exact hl
  · rw [if_neg hl] at hb
    exact batchLoop_mem_size tracks _ 0 b hb

theorem batchLoop_length_eq {α : Type} (tracks : List α) :
    ∀ fuel counter, counter * 100 ≤ tracks.length →
      tracks.length < counter * 100 + fuel * 100 →
      (batchLoop tracks counter fuel).length = (tracks.length - counter * 100) / 100 + 1 := by
  intro fuel
  induction fuel with
  | zero => intro counter h1 h2; omega
  | succ f ih =>
    intro counter h1 h2
    simp only [batchLoop]
    rw [if_pos h1, List.length_cons]
    by_cases hc : (counter + 1) * 100 ≤ tracks.length
    · rw [ih (counter + 1) hc (by omega)]
      omega
    · rw [batchLoop_nil tracks f (counter + 1) (by omega)]
      simp only [List.length_nil]
      omega

theorem batchLoop_getLast {α : Type} (tracks : List α) :
    ∀ fuel counter, counter * 100 ≤ tracks.length →
      tracks.length < counter * 100 + fuel * 100 →
      (batchLoop tracks counter fuel).getLast? =
        some ((tracks.drop ((tracks.length / 100) * 100)).take 100) := by
  intro fuel
  induction fuel with
  | zero => intro counter h1 h2; omega
  | succ f ih =>
    intro counter h1 h2
    simp only [batchLoop]
    rw [if_pos h1]
    by_cases hc : (counter + 1) * 100 ≤ tracks.length
    · have hrec := ih (counter + 1) hc (by omega)
      rcases hr : batchLoop tracks (counter + 1) f with _ | ⟨r0, rs⟩
      · rw [hr] at hrec; simp at hrec
      · rw [hr] at hrec
        rw [List.getLast?_cons_cons]
        exact hrec
    · rw [batchLoop_nil tracks f (counter + 1) (by omega)]
      have hcount : counter = tracks.length / 100 := by omega
      rw [hcount]
      simp

theorem obtain_new_tracks_mem (d c : List (List Char)) (x : List Char) :
    x ∈ obtain_new_tracks d c ↔ x ∈ d ∧ x ∉ c := by
  unfold obtain_new_tracks
  rw [List.mem_dedup, List.mem_filter]
  simp

theorem obtain_new_tracks_nodup (d c : List (List Char)) :
    (obtain_new_tracks d c).Nodup :=
  List.nodup_dedup _

/-- Every URI synthesized for an album member contains `'track'`. -/
theorem containsSub_trackStem (m : List Char) :
    containsSub trackLit (trackUriStem ++ m) = true := by
  unfold containsSub
  rw [List.any_eq_true]
  refine ⟨8, List.mem_range.mpr ?_, ?_⟩
  · rw [List.length_append]
    have h14 : trackUriStem.length = 14 := rfl
    omega
  · rfl

theorem recordOf_assoc (d t s b : List Char) :
    recordOf d t s b = (d ++ sepDate) ++ (t ++ sepTime ++ s ++ sepSender ++ b) := by
  unfold recordOf
  simp only [List.append_assoc]

theorem tokenize_stage1 (d t s b : List Char)
    (h1 : onlyOccAt sepDate (recordOf d t s b) d.length = true) :
    splitStep sepDate (recordOf d t s b) =
      some (d, t ++ sepTime ++ s ++ sepSender ++ b) := by
  have hstage : pySplit sepDate (d ++ sepDate ++ (t ++ sepTime ++ s ++ sepSender ++ b)) =
      [d, t ++ sepTime ++ s ++ sepSender ++ b] := by
    apply pySplit_of_onlyOcc sepDate (by decide) d _
    intro p hp
    apply onlyOccAt_spec sepDate _ d.length (by decide) h1 p
    rw [recordOf_assoc]
    exact hp
  unfold splitStep
  rw [recordOf_assoc, hstage]
  simp

theorem tokenize_stage2 (d t s b : List Char)
    (h2 : onlyOccAt sepTime (recordOf d t s b) (d.length + sepDate.length + t.length) = true) :
    splitStep sepTime (t ++ sepTime ++ s ++ sepSender ++ b) =
      some (t, s ++ sepSender ++ b) := by
  have huniq : ∀ q, matchesAt sepTime (t ++ sepTime ++ (s ++ sepSender ++ b)) q = true →
      q = t.length := by
    intro q hq
    have hq' : matchesAt sepTime (t ++ sepTime ++ s ++ sepSender ++ b) q = true := by
      rw [show t ++ sepTime ++ s ++ sepSender ++ b =
        t ++ sepTime ++ (s ++ sepSender ++ b) by simp only [List.append_assoc]]
      exact hq
    have hshift : matchesAt sepTime ((d ++ sepDate) ++ (t ++ sepTime ++ s ++ sepSender ++ b))
        ((d ++ sepDate).length + q) = true := by
      rw [matchesAt_shift]
      exact hq'
    rw [← recordOf_assoc] at hshift
    have heq := onlyOccAt_spec sepTime _ _ (by decide) h2 _ hshift
    have hlen : (d ++ sepDate).length = d.length + sepDate.length := by simp
    omega
  have hstage : pySplit sepTime (t ++ sepTime ++ (s ++ sepSender ++ b)) =
      [t, s ++ sepSender ++ b] := pySplit_of_onlyOcc sepTime (by decide) t _ huniq
  unfold splitStep
  rw [show t ++ sepTime ++ s ++ sepSender ++ b =
    t ++ sepTime ++ (s ++ sepSender ++ b) by simp only [List.append_assoc], hstage]
  simp

theorem tokenize_stage3 (d t s b : List Char)
    (h3 : onlyOccAt sepSender (recordOf d t s b)
      (d.length + sepDate.length + t.length + sepTime.length + s.length) = true) :
    senderSplit (s ++ sepSender ++ b) = (s, b) := by
  have huniq : ∀ q, matchesAt sepSender (s ++ sepSender ++ b) q = true → q = s.length := by
    intro q hq
    have hshift1 : matchesAt sepSender ((t ++ sepTime) ++ (s ++ sepSender ++ b))
        ((t ++ sepTime).length + q) = true := by
      rw [matchesAt_shift]
      exact hq
    have hshift1' : matchesAt sepSender (t ++ sepTime ++ s ++ sepSender ++ b)
        ((t ++ sepTime).length + q) = true := by
      rw [show t ++ sepTime ++ s ++ sepSender ++ b =
        (t ++ sepTime) ++ (s ++ sepSender ++ b) by simp only [List.append_assoc]]
      exact hshift1
    have hshift2 : matchesAt sepSender ((d ++ sepDate) ++ (t ++ sepTime ++ s ++ sepSender ++ b))
        ((d ++ sepDate).length + ((t ++ sepTime).length + q)) = true := by
      rw [matchesAt_shift]
      exact hshift1'
    rw [← recordOf_assoc] at hshift2
    have heq := onlyOccAt_spec sepSender _ _ (by decide) h3 _ hshift2
    have hl1 : (d ++ sepDate).length = d.length + sepDate.length := by simp
    have hl2 : (t ++ sepTime).length = t.length + sepTime.length := by simp
    omega
  have hstage : pySplit sepSender (s ++ sepSender ++ b) = [s, b] :=
    pySplit_of_onlyOcc sepSender (by decide) s b huniq
  unfold senderSplit
  rw [hstage]
  simp

/-- Structure of a successful reassembly: the first output record extends the
first input fragment; every later output record starts with a fragment that
passed the date-boundary test when it was selected as a record start. -/
theorem formatLoop_shape :
    ∀ fuel (l out : List (List Char)), l.length ≤ fuel + 1 → formatLoop fuel l = some out →
      (l = [] ∧ out = []) ∨
      ∃ x z tl, l.head? = some x ∧ out = (x ++ z) :: tl ∧
        ∀ r ∈ tl, ∃ y w, isDateBoundary y = true ∧ r = y ++ w := by
  intro fuel
  induction fuel with
  | zero =>
    intro l out hlen heq
    rcases l with _ | ⟨x, _ | ⟨y, rest⟩⟩
    · left
      refine ⟨rfl, ?_⟩
      simp only [formatLoop] at heq
      exact (Option.some.injEq _ _ ▸ heq).symm
    · right
      simp only [formatLoop] at heq
      refine ⟨x, [], [], rfl, ?_, by simp⟩
      have : out = [x] := by simpa using heq.symm
      rw [this]; simp
    · simp only [List.length_cons] at hlen; omega
  | succ f ih =>
    intro l out hlen heq
    rcases l with _ | ⟨x, _ | ⟨y, rest⟩⟩
    · left
      refine ⟨rfl, ?_⟩
      simp only [formatLoop] at heq
      exact (Option.some.injEq _ _ ▸ heq).symm
    · right
      simp only [formatLoop] at heq
      refine ⟨x, [], [], rfl, ?_, by simp⟩
      have : out = [x] := by simpa using heq.symm
      rw [this]; simp
    · simp only [formatLoop] at heq
      by_cases hd : isDateBoundary y = true
      · rw [if_pos hd] at heq
        rcases hmap : formatLoop f (y :: rest) with _ | out'
        · rw [hmap] at heq; simp at heq
        · rw [hmap] at heq
          simp only [Option.map_some', Option.some.injEq] at heq
          have hlen' : (y :: rest).length ≤ f + 1 := by
            simp only [List.length_cons] at hlen ⊢; omega
          rcases ih (y :: rest) out' hlen' hmap with ⟨h1, _⟩ | ⟨x', z, tl, hh, ho, hp⟩
          · simp at h1
          · have hx' : y = x' := by simpa using hh
            subst hx'
            right
            refine ⟨x, [], (y ++ z) :: tl, rfl, ?_, ?_⟩
            · rw [← heq, ho]; simp
            · intro r hr
              rcases List.mem_cons.mp hr with h1 | h1
              · exact ⟨y, z, hd, h1⟩
              · exact hp r h1
      · rw [if_neg hd] at heq
        rcases rest with _ | ⟨z₀, rest'⟩
        · simp at heq
        · have hlen' : ((x ++ y) :: z₀ :: rest').length ≤ f + 1 := by
            simp only [List.length_cons] at hlen ⊢; omega
          rcases ih ((x ++ y) :: z₀ :: rest') out hlen' heq with ⟨h1, _⟩ | ⟨x', z, tl, hh, ho, hp⟩
          · simp at h1
          · have hx' : x ++ y = x' := by simpa using hh
            subst hx'
            right
            refine ⟨x, y ++ z, tl, rfl, ?_, hp⟩
            rw [ho]
            simp [List.append_assoc]

theorem getLast?_drop_lt {α : Type} : ∀ (l : List α) (n : Nat), n < l.length →
    (l.drop n).getLast? = l.getLast? := by
  intro l
  induction l with
  | nil => intro n h; simp at h
  | cons a t ih =>
    intro n h
    cases n with
    | zero => rfl
    | succ m =>
      rw [List.drop_succ_cons]
      rw [ih m (by simp only [List.length_cons] at h; omega)]
      rcases t with _ | ⟨b, t'⟩
      · simp only [List.length_cons, List.length_nil] at h; omega
      · rw [List.getLast?_cons_cons]

/-- The loop crashes whenever the final fragment fails the date-boundary
test: each iteration either advances the cursor past a passing fragment or
merges a failing one, so the run ends at the last fragment's test; if that
test fails the merge shrinks the list under the cursor and the next
`text[i+1]` is out of range: `none`, the uncaught `IndexError`. -/
theorem formatLoop_stuck_last :
    ∀ fuel (l : List (List Char)) (z : List Char), 2 ≤ l.length → l.length ≤ fuel + 1 →
      l.getLast? = some z → isDateBoundary z = false → formatLoop fuel l = none := by
  intro fuel
  induction fuel with
  | zero =>
    intro l z h2 hlen _ _
    omega
  | succ f ih =>
    intro l z h2 hlen hlast hz
    rcases l with _ | ⟨x, _ | ⟨y, rest⟩⟩
    · simp at h2
    · simp at h2
    · rcases rest with _ | ⟨z₀, rest'⟩
      · have hy : y = z := by
          rw [List.getLast?_cons_cons] at hlast
          simpa using hlast
        subst hy
        simp only [formatLoop]
        rw [if_neg (by simp [hz])]
      · have hlast' : (y :: z₀ :: rest').getLast? = some z := by
          rw [List.getLast?_cons_cons] at hlast
          exact hlast
        simp only [formatLoop]
        by_cases hy : isDateBoundary y = true
        · rw [if_pos hy]
          rw [ih (y :: z₀ :: rest') z (by simp)
            (by simp only [List.length_cons] at hlen ⊢; omega) hlast' hz]
          rfl
        · rw [if_neg hy]
          show formatLoop f ((x ++ y) :: z₀ :: rest') = none
          apply ih ((x ++ y) :: z₀ :: rest') z (by simp)
            (by simp only [List.length_cons] at hlen ⊢; omega) ?_ hz
          rw [List.getLast?_cons_cons] at hlast' ⊢
          exact hlast'

theorem batchLoop_cons {α : Type} (tracks : List α) (c f : Nat) (hc : c * 100 ≤ tracks.length) :
    batchLoop tracks c (f + 1) = (tracks.drop (c * 100)).take 100 :: batchLoop tracks (c + 1) f := by
  simp only [batchLoop]
  rw [if_pos hc]

/-- C5: batching in `add_items_to_playlist` never submits a chunk larger
than 100, concatenating the submitted chunks in order reproduces the input
exactly, and an input of length 250 is submitted as exactly three batches of
sizes 100, 100, 50 in order. -/
theorem C5_batching_correct {α : Type} (tracks : List α) :
    (∀ b ∈ add_items_to_playlist tracks, b.length ≤ 100) ∧
    (add_items_to_playlist tracks).flatten = tracks ∧
    (tracks.length = 250 →
      (add_items_to_playlist tracks).map List.length = [100, 100, 50]) := by
  refine ⟨add_items_mem_size tracks, add_items_flatten tracks, ?_⟩
  intro h250
  unfold add_items_to_playlist
  rw [if_neg (by omega)]
  rw [h250]
  rw [batchLoop_cons tracks 0 250 (by omega)]
  rw [show (250 : Nat) = 249 + 1 from rfl]
  rw [batchLoop_cons tracks 1 249 (by omega)]
  rw [show (249 : Nat) = 248 + 1 from rfl]
  rw [batchLoop_cons tracks 2 248 (by omega)]
  rw [batchLoop_nil tracks 248 3 (by omega)]
  simp only [List.map_cons, List.map_nil, List.length_take, List.length_drop, h250]
  norm_num

set_option maxRecDepth 4000 in
/-- C5 witness: a concrete 250-element list batches as 100, 100, 50. -/
theorem C5_batching_witness :
    (add_items_to_playlist (List.range 250)).map List.length = [100, 100, 50] :=
  (C5_batching_correct (List.range 250)).2.2 (by simp)

/-- C10: for more than 100 tracks the loop issues `n / 100 + 1` append
requests, and when `n` is an exact multiple of 100 the final request carries
an empty batch. -/
theorem C10_batch_count_and_empty_tail {α : Type} (tracks : List α)
    (h : 100 < tracks.length) :
    (add_items_to_playlist tracks).length = tracks.length / 100 + 1 ∧
    (tracks.length % 100 = 0 →
      (add_items_to_playlist tracks).getLast? = some []) := by
  constructor
  · unfold add_items_to_playlist
    rw [if_neg (by omega)]
    have := batchLoop_length_eq tracks (tracks.length + 1) 0 (by omega) (by omega)
    simpa using this
  · intro hmod
    unfold add_items_to_playlist
    rw [if_neg (by omega)]
    have hlast := batchLoop_getLast tracks (tracks.length + 1) 0 (by omega) (by omega)
    rw [hlast]
    have hdiv : tracks.length / 100 * 100 = tracks.length := by omega
    rw [hdiv, List.drop_length]
    simp

set_option maxRecDepth 4000 in
/-- C10 witness: 200 tracks make 3 requests and the last batch is empty. -/
theorem C10_batch_witness :
    (add_items_to_playlist (List.range 200)).length = 3 ∧
    (add_items_to_playlist (List.range 200)).getLast? = some [] := by
  have h := C10_batch_count_and_empty_tail (List.range 200) (by simp)
  exact ⟨by simpa using h.1, h.2 (by simp)⟩

/-- C7: the synchronizer is idempotent in the Exists state: after the first
run's additions `desired \ current` are appended to the playlist, a second
run computes an empty difference and submits no append batch at all. -/
theorem C7_second_run_empty (d c : List (List Char)) :
    obtain_new_tracks d (c ++ obtain_new_tracks d c) = [] ∧
    submittedAdds d (some (c ++ obtain_new_tracks d c)) = [] := by
  have hfilter : d.filter (fun t => decide (t ∉ c ++ obtain_new_tracks d c)) = [] := by
    rw [List.filter_eq_nil]
    intro a ha
    simp only [decide_eq_true_eq, not_not]
    rw [List.mem_append]
    by_cases hac : a ∈ c
    · exact Or.inl hac
    · exact Or.inr ((obtain_new_tracks_mem d c a).mpr ⟨ha, hac⟩)
  have hmain : obtain_new_tracks d (c ++ obtain_new_tracks d c) = [] := by
    show (d.filter (fun t => decide (t ∉ c ++ obtain_new_tracks d c))).dedup = []
    rw [hfilter]
    rfl
  refine ⟨hmain, ?_⟩
  simp only [submittedAdds, hmain]
  rfl

/-- C6 counterexample: in the NotExists (create) state the code submits the
incoming list as is, so a desired list containing the same id twice submits
it twice — not "at most once" as the claim states. -/
theorem C6_create_duplicates :
    ((submittedAdds [dupTrack, dupTrack] none).flatten).count dupTrack = 2 := by decide

/-- C6 amended: only the Exists state deduplicates. There the additions are
exactly `desired \ current` with duplicates collapsed; in the NotExists
(create) state the desired list is submitted unchanged, duplicates included. -/
theorem C6_dedup_only_when_exists (d c : List (List Char)) :
    (obtain_new_tracks d c).Nodup ∧
    (∀ x, x ∈ obtain_new_tracks d c ↔ x ∈ d ∧ x ∉ c) ∧
    (submittedAdds d (some c)).flatten = obtain_new_tracks d c ∧
    (submittedAdds d none).flatten = d := by
  refine ⟨obtain_new_tracks_nodup d c, fun x => obtain_new_tracks_mem d c x, ?_, ?_⟩
  · simp only [submittedAdds]
    by_cases he : (obtain_new_tracks d c).isEmpty
    · rw [if_pos he]
      have hnil : obtain_new_tracks d c = [] := List.isEmpty_iff.mp he
      rw [hnil]
      rfl
    · rw [if_neg he]
      exact add_items_flatten _
  · simp only [submittedAdds]
    exact add_items_flatten d

/-- C1 counterexample: when the first input fragment does not begin with a
date token, `format_messages` still emits it untouched as the first logical
record (the loop only ever tests `text[i+1]`, never `text[0]`), so the first
output record does not begin with a valid date token. -/
theorem C1_first_record_no_date :
    format_messages [fragGarbage, fragDated] = some [fragGarbage, fragDated] ∧
    isDateBoundary fragGarbage = false := by decide

/-- C1 amended: in a successful reassembly every logical record *after the
first* starts with a fragment that passed the date-boundary test, and
whenever that fragment contains a comma (the shape of every real record,
`date, time - ...`) the whole record still begins with a valid date token.
The first output record carries no such guarantee. -/
theorem C1_tail_records_date_boundary (text out : List (List Char)) (r : List Char)
    (hfmt : format_messages text = some out) (hr : r ∈ out.tail) :
    ∃ y w, isDateBoundary y = true ∧ r = y ++ w ∧
      (',' ∈ y → isDateBoundary r = true) := by
  have hfmt' : formatLoop text.length text = some out := hfmt
  have hshape := formatLoop_shape text.length text out (by omega) hfmt'
  rcases hshape with ⟨_, hout⟩ | ⟨x, z, tl, _, hout, hp⟩
  · rw [hout] at hr; simp at hr
  · rw [hout] at hr
    simp only [List.tail_cons] at hr
    obtain ⟨y, w, hy, hryw⟩ := hp r hr
    refine ⟨y, w, hy, hryw, ?_⟩
    intro hcomma
    rw [hryw, isDateBoundary_append y w hcomma]
    exact hy

/-- C1 witness: concrete reassembly where a continuation fragment is merged
and the second output record starts at a date boundary. -/
theorem C1_tail_records_witness :
    ∃ y w, isDateBoundary y = true ∧ "2/2/2, b".toList = y ++ w ∧
      (',' ∈ y → isDateBoundary "2/2/2, b".toList = true) :=
  C1_tail_records_date_boundary
    ["1/1/1, a".toList, "cont".toList, "2/2/2, b".toList]
    ["1/1/1, acont".toList, "2/2/2, b".toList]
    "2/2/2, b".toList (by decide) (by decide)

/-- C8 counterexample: on `["a", "b"]` no fragment ever passes the date test;
the loop merges the two fragments and then evaluates `text[1]` on a
one-element list — an uncaught `IndexError` (`none`). Nothing is reported
and no unmerged remainder is surfaced. -/
theorem C8_crash_not_reported :
    format_messages ["a".toList, "b".toList] = none := by decide

/-- C8 amended: for every input in which, from some cursor position onward,
no remaining fragment's prefix before the first comma satisfies the
date-boundary test before input exhaustion, `format_messages` does
terminate, but by raising an uncaught `IndexError` (modeled as `none`): it
neither reports a `ReassemblyAmbiguity` nor surfaces the unmerged
remainder. -/
theorem C8_no_boundary_index_error (text : List (List Char))
    (h : ∃ k, k + 1 < text.length ∧
      ∀ y ∈ text.drop (k + 1), isDateBoundary y = false) :
    format_messages text = none := by
  obtain ⟨k, hk, hall⟩ := h
  have hd : text.drop (k + 1) ≠ [] := by
    apply List.ne_nil_of_length_pos
    rw [List.length_drop]
    omega
  have hz1 : isDateBoundary ((text.drop (k + 1)).getLast hd) = false :=
    hall _ (List.getLast_mem hd)
  have hz2 : (text.drop (k + 1)).getLast? = some ((text.drop (k + 1)).getLast hd) :=
    List.getLast?_eq_getLast_of_ne_nil hd
  rw [getLast?_drop_lt text (k + 1) (by omega)] at hz2
  exact formatLoop_stuck_last text.length text _ (by omega) (by omega) hz2 hz1

/-- C8 witness: from cursor position 1 onward no remaining fragment passes
the date test (although the second fragment itself does pass it), and the
run crashes. -/
theorem C8_no_boundary_witness :
    format_messages
      ["1/1/1, a".toList, "2/2/2, b".toList, "x".toList, "y".toList] = none :=
  C8_no_boundary_index_error
    ["1/1/1, a".toList, "2/2/2, b".toList, "x".toList, "y".toList]
    ⟨1, by decide, by decide⟩

/-- C2 counterexample: a record without the separators makes `s1[1]` raise an
uncaught `IndexError` (`none`), and that one bad record fails the whole
conversion even though another record in the run is well formed. -/
theorem C2_tokenize_crash :
    tokenizeRecord recNoSep = none ∧
    (tokenizeRecord recGood).isSome = true ∧
    convert_to_dataframe [recGood, recNoSep] = none := by decide

/-- C2 amended: tokenization succeeds exactly when the record contains `', '`
and the joined remainder after the date split contains `' - '`; a record
missing either separator raises an `IndexError` that fails the whole run
(only a missing `': '` is tolerated, yielding an empty sender). -/
theorem tokenizeRecord_eq (r d rest1 : List Char)
    (hs : splitStep sepDate r = some (d, rest1)) :
    tokenizeRecord r =
      match splitStep sepTime rest1 with
      | none => none
      | some (t, rest2) => some (d, t, (senderSplit rest2).1, (senderSplit rest2).2) := by
  unfold tokenizeRecord
  rw [hs]

theorem C2_tokenize_failure_iff (r : List Char) (text : List (List Char)) :
    ((tokenizeRecord r).isSome = true ↔
      2 ≤ (pySplit sepDate r).length ∧
      2 ≤ (pySplit sepTime ((pySplit sepDate r).tail.flatten)).length) ∧
    (tokenizeRecord r = none → r ∈ text → convert_to_dataframe text = none) := by
  constructor
  · rcases h1 : pySplit sepDate r with _ | ⟨x, _ | ⟨y, rest⟩⟩
    · exact absurd h1 (pySplit_ne_nil sepDate r)
    · have hs : splitStep sepDate r = none := by
        unfold splitStep; rw [h1]
      unfold tokenizeRecord
      rw [hs]
      simp
    · have hs : splitStep sepDate r = some (x, (y :: rest).flatten) := by
        unfold splitStep; rw [h1]
      have hteq := tokenizeRecord_eq r x ((y :: rest).flatten) hs
      rcases h2 : pySplit sepTime ((y :: rest).flatten) with _ | ⟨u, _ | ⟨v, rest'⟩⟩
      · exact absurd h2 (pySplit_ne_nil _ _)
      · have hs2 : splitStep sepTime ((y :: rest).flatten) = none := by
          unfold splitStep; rw [h2]
        rw [hs2] at hteq
        rw [hteq]
        simp only [List.flatten_cons] at h2
        simp [h2]
      · have hs2 : splitStep sepTime ((y :: rest).flatten) =
            some (u, (v :: rest').flatten) := by
          unfold splitStep; rw [h2]
        rw [hs2] at hteq
        rw [hteq]
        simp only [List.flatten_cons] at h2
        simp [h2]
        try omega
  · intro hnone hmem
    exact mapOpt_eq_none tokenizeRecord text r hmem hnone

/-- C2 witness: a record lacking only the `' - '` separator still fails the
whole conversion. -/
theorem C2_tokenize_failure_witness :
    tokenizeRecord recNoDash = none ∧ convert_to_dataframe [recNoDash] = none :=
  ⟨by decide, (C2_tokenize_failure_iff recNoDash [recNoDash]).2 (by decide) (by decide)⟩

/-- C9: tokenization is inverse-stable on well-formed input. If a record is
`date ++ ", " ++ time ++ " - " ++ sender ++ ": " ++ body` and each of the
three separators occurs nowhere else in it, the tokenizer returns exactly the
four fields, so reconstructing `date + ", " + time + " - " + sender +
": " + body` from its output gives back the original record. -/
theorem C9_round_trip (d t s b : List Char)
    (h1 : onlyOccAt sepDate (recordOf d t s b) d.length = true)
    (h2 : onlyOccAt sepTime (recordOf d t s b)
      (d.length + sepDate.length + t.length) = true)
    (h3 : onlyOccAt sepSender (recordOf d t s b)
      (d.length + sepDate.length + t.length + sepTime.length + s.length) = true) :
    tokenizeRecord (recordOf d t s b) = some (d, t, s, b) ∧
    reconstruct (d, t, s, b) = recordOf d t s b := by
  refine ⟨?_, rfl⟩
  simp only [tokenizeRecord, tokenize_stage1 d t s b h1, tokenize_stage2 d t s b h2,
    tokenize_stage3 d t s b h3]

/-- C9 witness: the round trip on a concrete well-formed record. -/
theorem C9_round_trip_witness :
    tokenizeRecord (recordOf "1/2/20".toList "10:00".toList "Alice".toList "hi".toList) =
      some ("1/2/20".toList, "10:00".toList, "Alice".toList, "hi".toList) ∧
    reconstruct ("1/2/20".toList, "10:00".toList, "Alice".toList, "hi".toList) =
      recordOf "1/2/20".toList "10:00".toList "Alice".toList "hi".toList :=
  C9_round_trip "1/2/20".toList "10:00".toList "Alice".toList "hi".toList
    (by decide) (by decide) (by decide)

/-- C3 counterexample: one malformed link raises an uncaught `IndexError`
(`none`) that aborts the whole batch, even though the other link in the batch
is valid — there is no `MalformedLink` report and no continuation. -/
theorem C3_batch_crash :
    urlToUri linkBad = none ∧
    (urlToUri linkGood).isSome = true ∧
    convert_url_to_uri false emptyCatalog [linkBad, linkGood] = none := by decide

/-- C3 amended: a link that does not contain the host, or whose remainder
after the host has no `'/'`, makes `convert_url_to_uri` raise an uncaught
`IndexError` at that link, aborting the whole batch (for any configuration
and catalog); no error is reported and no other link is processed. -/
theorem C3_malformed_link_aborts_batch (url : List Char)
    (h : (pySplit hostStr url).length = 1 ∨
      ∃ s0 s1 rest, pySplit hostStr url = s0 :: s1 :: rest ∧
        (pySplit ['/'] s1).length = 1) :
    urlToUri url = none ∧
    ∀ (albums : Bool) (catalog : List Char → List (List Char)) (urls : List (List Char)),
      url ∈ urls → convert_url_to_uri albums catalog urls = none := by
  have hnone : urlToUri url = none := by
    rcases h with h1 | ⟨s0, s1, rest, hsp, hlen⟩
    · obtain ⟨x, hx⟩ := List.length_eq_one.mp h1
      unfold urlToUri
      rw [hx]
    · obtain ⟨u, hu⟩ := List.length_eq_one.mp hlen
      have hstep : urlToUri url =
          match pySplit ['/'] s1 with
          | s20 :: s21 :: _ =>
            some ("spotify:".toList ++ s20 ++ [':'] ++ (pySplit ['?'] s21).headD [])
          | _ => none := by
        unfold urlToUri
        rw [hsp]
      rw [hstep, hu]
  refine ⟨hnone, ?_⟩
  intro albums catalog urls hmem
  unfold convert_url_to_uri
  rw [mapOpt_eq_none urlToUri urls url hmem hnone]
  rfl

/-- C3 witness: a link with the host but no following slash aborts a batch. -/
theorem C3_malformed_link_witness :
    urlToUri linkNoSlash = none ∧
    convert_url_to_uri false emptyCatalog [linkNoSlash] = none := by
  have h := C3_malformed_link_aborts_batch linkNoSlash
    (Or.inr ⟨[], "trackonly".toList, [], by decide, by decide⟩)
  exact ⟨h.1, h.2 false emptyCatalog [linkNoSlash] (by decide)⟩

/-- C4 counterexample: kind detection is a substring test on the whole URI,
so an album URI whose id contains `'track'` is kept in the output (besides
being expanded) — an album identifier remains in the output. -/
theorem C4_album_remains :
    containsSub albumLit albumWithTrackSub = true ∧
    albumWithTrackSub ∈ convert_albums_to_tracks oneTrackCatalog [albumWithTrackSub] := by
  decide

/-- C4 amended: provided no input URI contains both `'track'` and `'album'`
as substrings, the expansion behaves as claimed: every URI containing
`'track'` is kept unchanged, every URI containing `'album'` is dropped from
the output, one `'spotify:track:' ++ m` entry is appended per member `m` the
catalog returns for it, and the output length is exactly the kept tracks
plus one entry per member. -/
theorem C4_expansion_separated (catalog : List Char → List (List Char))
    (uri_list : List (List Char))
    (h : ∀ x ∈ uri_list, ¬(containsSub trackLit x = true ∧ containsSub albumLit x = true)) :
    (∀ x ∈ uri_list, containsSub trackLit x = true →
      x ∈ convert_albums_to_tracks catalog uri_list) ∧
    (∀ x ∈ uri_list, containsSub albumLit x = true →
      x ∉ convert_albums_to_tracks catalog uri_list) ∧
    (∀ a ∈ uri_list, containsSub albumLit a = true →
      ∀ m ∈ catalog (lastSeg a),
        trackUriStem ++ m ∈ convert_albums_to_tracks catalog uri_list) ∧
    (convert_albums_to_tracks catalog uri_list).length =
      (uri_list.filter (fun x => containsSub trackLit x)).length +
        ((uri_list.filter (fun x => containsSub albumLit x)).map
          (fun a => (catalog (lastSeg a)).length)).sum := by
  refine ⟨?_, ?_, ?_, ?_⟩
  · intro x hx ht
    unfold convert_albums_to_tracks
    exact List.mem_append_left _ (List.mem_filter.mpr ⟨hx, ht⟩)
  · intro x hx ha hmem
    unfold convert_albums_to_tracks at hmem
    rcases List.mem_append.mp hmem with hin | hin
    · have ht : containsSub trackLit x = true := (List.mem_filter.mp hin).2
      exact h x hx ⟨ht, ha⟩
    · obtain ⟨l, hl, hxl⟩ := List.mem_flatten.mp hin
      obtain ⟨a, _, hal⟩ := List.mem_map.mp hl
      rw [← hal] at hxl
      obtain ⟨m, _, hm⟩ := List.mem_map.mp hxl
      have ht : containsSub trackLit x = true := by
        rw [← hm]
        exact containsSub_trackStem m
      exact h x hx ⟨ht, ha⟩
  · intro a ha hal m hm
    unfold convert_albums_to_tracks
    apply List.mem_append_right
    apply List.mem_flatten.mpr
    refine ⟨(catalog (lastSeg a)).map (fun m => trackUriStem ++ m), ?_, ?_⟩
    · exact List.mem_map_of_mem _ (List.mem_filter.mpr ⟨ha, hal⟩)
    · exact List.mem_map_of_mem _ hm
  · unfold convert_albums_to_tracks
    rw [List.length_append, List.length_flatten, List.map_map]
    congr 1
    apply congrArg
    apply List.map_congr_left
    intro a _
    simp

/-- C4 witness: one track and one album with two members give three output
entries. -/
theorem C4_expansion_witness :
    (convert_albums_to_tracks twoTrackCatalog mixedUris).length = 3 := by
  have h := (C4_expansion_separated twoTrackCatalog mixedUris (by decide)).2.2.2
  rw [h]
  decide
